import Mathlib

/-!
Verification of the id-dss frontend session-state model.

Shallow embedding of:
- the data model (src/frontend/src/types/index.ts),
- the session store (src/frontend/src/stores/session.ts),
- the markdown-stripping utility (src/frontend/src/utils/text.ts),
- the objectives parsing/normalization and the dirty-tracking reconciler
  (src/frontend/src/views/CourseContextView.vue),
- the export filename computation (src/frontend/src/services/api.ts).

Store mutations are modelled as pure state transformers on a `StoreState`
record; TypeScript strings are Lean `String`s, nullable fields are `Option`s.
-/

namespace IdDss

/-! ## Data model (types/index.ts) -/

/-- Model of `Session` from types/index.ts: ids are TS numbers, modelled as `Nat`. -/
structure Session where
  id : Nat
  course_title : String
  level : String
  modality : String
  constraints : Option String
  learning_objectives : Option String
  created_at : String
deriving Repr, DecidableEq

/-- Model of `CourseContextForm` from types/index.ts. -/
structure CourseContextForm where
  course_title : String
  level : String
  modality : String
  constraints : String
  learning_objectives : String
deriving Repr, DecidableEq

/-- Model of `DesignStep` from types/index.ts. -/
structure DesignStep where
  id : Nat
  session_id : Nat
  phase : String
  user_input : Option String
  created_at : String
deriving Repr, DecidableEq

/-- Model of `ActionType` union from types/index.ts. -/
inductive ActionType where
  | accept
  | reject
  | edit
  | comment
  | regenerate
deriving Repr, DecidableEq

/-- Model of `AIRecommendation` from types/index.ts. -/
structure AIRecommendation where
  id : Nat
  step_id : Nat
  phase : String
  raw_response : String
  created_at : String
deriving Repr, DecidableEq

/-- Model of `UserAction` from types/index.ts. -/
structure UserAction where
  id : Nat
  step_id : Nat
  recommendation_id : Option Nat
  action_type : ActionType
  edited_content : Option String
  comment : Option String
  created_at : String
deriving Repr, DecidableEq

/-- Model of `BloomAnalysisItem` from types/index.ts. -/
structure BloomAnalysisItem where
  objective : String
  current_level : String
  domain : String
  is_measurable : Bool
  suggestion : String
deriving Repr, DecidableEq

/-- Model of `ObjectiveAnalysisResponse` from types/index.ts. -/
structure ObjectiveAnalysisResponse where
  overall_assessment : String
  bloom_analysis : List BloomAnalysisItem
  alignment_notes : String
  missing_coverage : List String
  improved_objectives : List String
deriving Repr, DecidableEq

/-- The `adaptations` sub-object of `ActivityItem`. -/
structure ActivityAdaptations where
  online : String
  accessibility : String
deriving Repr, DecidableEq

/-- Model of `ActivityItem` from types/index.ts. -/
structure ActivityItem where
  title : String
  type : String
  description : String
  objective_alignment : List String
  duration : String
  materials_needed : List String
  instructions : List String
  assessment_criteria : String
  adaptations : ActivityAdaptations
deriving Repr, DecidableEq

/-- Model of `DesignPhase` union from types/index.ts. -/
inductive DesignPhase where
  | context
  | objectiveAnalysis
  | activitySuggestion
  | summary
deriving Repr, DecidableEq

/-! ## Session store (stores/session.ts) -/

/-- The state refs held by `useSessionStore` in stores/session.ts. -/
structure StoreState where
  currentSession : Option Session
  sessionId : Option Nat
  courseContext : CourseContextForm
  designSteps : List DesignStep
  recommendations : List AIRecommendation
  userActions : List UserAction
  objectiveAnalysis : Option ObjectiveAnalysisResponse
  activitySuggestions : List ActivityItem
  isLoading : Bool
  isGenerating : Bool
  currentPhase : DesignPhase
deriving Repr, DecidableEq

/-- The empty form literal used both at store creation and in `resetSession`. -/
def emptyForm : CourseContextForm :=
  { course_title := ""
    level := ""
    modality := ""
    constraints := ""
    learning_objectives := "" }

/-- Initial values of every state ref in `useSessionStore`. -/
def initialState : StoreState :=
  { currentSession := none
    sessionId := none
    courseContext := emptyForm
    designSteps := []
    recommendations := []
    userActions := []
    objectiveAnalysis := none
    activitySuggestions := []
    isLoading := false
    isGenerating := false
    currentPhase := DesignPhase.context }

/-- Model of `setSession(session)` from stores/session.ts. -/
def setSession (session : Session) (s : StoreState) : StoreState :=
  { s with currentSession := some session, sessionId := some session.id }

/-- Model of `setCourseContext(context)`: stores a shallow copy `{ ...context }`;
value semantics make the copy implicit here. -/
def setCourseContext (context : CourseContextForm) (s : StoreState) : StoreState :=
  { s with courseContext := context }

/-- Model of `updateLearningObjectives(objectives)` from stores/session.ts. -/
def updateLearningObjectives (objectives : String) (s : StoreState) : StoreState :=
  { s with courseContext := { s.courseContext with learning_objectives := objectives } }

/-- Model of `setCurrentPhase(phase)` from stores/session.ts. -/
def setCurrentPhase (phase : DesignPhase) (s : StoreState) : StoreState :=
  { s with currentPhase := phase }

/-- Model of `addDesignStep(step)`: `designSteps.value.push(step)`. -/
def addDesignStep (step : DesignStep) (s : StoreState) : StoreState :=
  { s with designSteps := s.designSteps ++ [step] }

/-- Model of `addRecommendation(recommendation)` from stores/session.ts. -/
def addRecommendation (recommendation : AIRecommendation) (s : StoreState) : StoreState :=
  { s with recommendations := s.recommendations ++ [recommendation] }

/-- Model of `setObjectiveAnalysis(analysis)` from stores/session.ts. -/
def setObjectiveAnalysis (analysis : ObjectiveAnalysisResponse) (s : StoreState) : StoreState :=
  { s with objectiveAnalysis := some analysis }

/-- Model of `setActivitySuggestions(suggestions)` from stores/session.ts. -/
def setActivitySuggestions (suggestions : List ActivityItem) (s : StoreState) : StoreState :=
  { s with activitySuggestions := suggestions }

/-- Model of `addUserAction(action)` from stores/session.ts. -/
def addUserAction (action : UserAction) (s : StoreState) : StoreState :=
  { s with userActions := s.userActions ++ [action] }

/-- Model of `setLoading(loading)` from stores/session.ts. -/
def setLoading (loading : Bool) (s : StoreState) : StoreState :=
  { s with isLoading := loading }

/-- Model of `setGenerating(generating)` from stores/session.ts. -/
def setGenerating (generating : Bool) (s : StoreState) : StoreState :=
  { s with isGenerating := generating }

/-- Model of `resetSession()` from stores/session.ts: assigns every state ref its
initial value. -/
def resetSession (_s : StoreState) : StoreState :=
  { currentSession := none
    sessionId := none
    courseContext :=
      { course_title := ""
        level := ""
        modality := ""
        constraints := ""
        learning_objectives := "" }
    designSteps := []
    recommendations := []
    userActions := []
    objectiveAnalysis := none
    activitySuggestions := []
    currentPhase := DesignPhase.context
    isLoading := false
    isGenerating := false }

/-- Getter `hasActiveSession`: `sessionId.value !== null`. -/
def hasActiveSession (s : StoreState) : Bool :=
  s.sessionId.isSome

/-- Getter `currentStepForPhase(phase)`: `designSteps.value.find(step => step.phase === phase)`. -/
def currentStepForPhase (s : StoreState) (phase : String) : Option DesignStep :=
  s.designSteps.find? (fun step => step.phase == phase)

/-- Getter `recommendationsForStep(stepId)`: filter by `step_id`. -/
def recommendationsForStep (s : StoreState) (stepId : Nat) : List AIRecommendation :=
  s.recommendations.filter (fun r => r.step_id == stepId)

/-- A sequence of `addDesignStep` calls applied in order. -/
def applySteps (steps : List DesignStep) (s : StoreState) : StoreState :=
  steps.foldl (fun acc st => addDesignStep st acc) s

theorem applySteps_designSteps (steps : List DesignStep) (s : StoreState) :
    (applySteps steps s).designSteps = s.designSteps ++ steps := by
  induction steps generalizing s with
  | nil => simp [applySteps]
  | cons st rest ih =>
    simp [applySteps] at ih ⊢
    rw [ih]
    simp [addDesignStep]

theorem applySteps_cons (st : DesignStep) (steps : List DesignStep) (s : StoreState) :
    applySteps (st :: steps) s = applySteps steps (addDesignStep st s) := by
  simp [applySteps]

/-- Claim C2: For every sequence of `addDesignStep` calls starting from the
initial store and every phase `p`, `currentStepForPhase p` returns the
first-inserted design step whose `phase` equals `p` (the leftmost match under
insertion order), or `none` if no step with phase `p` is present. -/
theorem currentStepForPhase_first_inserted (steps : List DesignStep) (p : String) :
    currentStepForPhase (applySteps steps initialState) p
      = steps.find? (fun st => st.phase == p) := by
  simp [currentStepForPhase, applySteps_designSteps, initialState]

/-- Claim C3: `resetSession` restores every store field to its documented
initial empty value from any prior state, so every getter afterwards returns
exactly its initial result. -/
theorem resetSession_restores_initial (s : StoreState) (p : String) (i : Nat) :
    resetSession s = initialState ∧
    hasActiveSession (resetSession s) = false ∧
    currentStepForPhase (resetSession s) p = none ∧
    recommendationsForStep (resetSession s) i = [] := by
  refine ⟨rfl, rfl, rfl, rfl⟩

/-- Claim C6: After `setCourseContext f` then `updateLearningObjectives x`, the
stored form's `learning_objectives` equals `x` and every other form field
equals the corresponding field of `f`. -/
theorem updateLearningObjectives_frame (f : CourseContextForm) (x : String) (s : StoreState) :
    (updateLearningObjectives x (setCourseContext f s)).courseContext.learning_objectives = x ∧
    (updateLearningObjectives x (setCourseContext f s)).courseContext.course_title = f.course_title ∧
    (updateLearningObjectives x (setCourseContext f s)).courseContext.level = f.level ∧
    (updateLearningObjectives x (setCourseContext f s)).courseContext.modality = f.modality ∧
    (updateLearningObjectives x (setCourseContext f s)).courseContext.constraints = f.constraints := by
  refine ⟨rfl, rfl, rfl, rfl, rfl⟩

/-- Claim C7: `setSession session` replaces the current session and the session
id, leaves the design-step, recommendation and user-action lists and every
other store field unchanged, and makes `hasActiveSession` true. -/
theorem setSession_frame (session : Session) (s : StoreState) :
    (setSession session s).currentSession = some session ∧
    (setSession session s).sessionId = some session.id ∧
    (setSession session s).designSteps = s.designSteps ∧
    (setSession session s).recommendations = s.recommendations ∧
    (setSession session s).userActions = s.userActions ∧
    (setSession session s).courseContext = s.courseContext ∧
    (setSession session s).objectiveAnalysis = s.objectiveAnalysis ∧
    (setSession session s).activitySuggestions = s.activitySuggestions ∧
    (setSession session s).isLoading = s.isLoading ∧
    (setSession session s).isGenerating = s.isGenerating ∧
    (setSession session s).currentPhase = s.currentPhase ∧
    hasActiveSession (setSession session s) = true := by
  refine ⟨rfl, rfl, rfl, rfl, rfl, rfl, rfl, rfl, rfl, rfl, rfl, rfl⟩

/-! ## Dirty-tracking reconciler (views/CourseContextView.vue, objective-analysis section) -/

/-- Local state of the objective-analysis view that participates in
dirty-tracking: the session store plus the refs `objectivesDraft`,
`lastSavedObjectives` and `hasSavedBaseline`. -/
structure ViewState where
  store : StoreState
  objectivesDraft : String
  lastSavedObjectives : String
  hasSavedBaseline : Bool
deriving Repr, DecidableEq

/-- Model of `isDirty` computed ref: `(objectivesDraft.value || '') !== (lastSavedObjectives.value || '')`. -/
def isDirty (v : ViewState) : Bool :=
  v.objectivesDraft != v.lastSavedObjectives

/-- Body of the `watch` on `sessionStore.courseContext.learning_objectives`:
first hydration establishes baseline and draft; afterwards the draft is
refreshed from the store only when not dirty. -/
def watchLearningObjectives (v : ViewState) : ViewState :=
  let next := v.store.courseContext.learning_objectives
  if !v.hasSavedBaseline then
    { v with objectivesDraft := next, lastSavedObjectives := next, hasSavedBaseline := true }
  else if !(isDirty v) then
    { v with objectivesDraft := next }
  else
    v

/-- Outcome of an `updateSession` network call: either the server's returned
session or a thrown transport/HTTP error. -/
inductive PersistOutcome where
  | ok (session : Session)
  | err
deriving Repr, DecidableEq

/-- JS truthiness of a nullable session id: `null` and `0` are falsy, every
other number is truthy.  This is the test performed by
`if (sessionStore.sessionId)` and `if (!sessionStore.sessionId) return`. -/
def numTruthy : Option Nat → Bool
  | none => false
  | some n => n != 0

/-- Model of `persistObjectives(updated, actionComment)`: updates the store first; when
the session id is truthy (`if (sessionStore.sessionId)`, so id 0 skips the
call like `null` does) it awaits `updateSession` and, on success, sets the
baseline to `session.learning_objectives ?? updated`; on failure the error
propagates with the baseline untouched.  The best-effort `createAction` call
touches none of the modelled state. -/
def persistObjectives (updated : String) (r : PersistOutcome) (v : ViewState) : ViewState :=
  let v1 := { v with store := updateLearningObjectives updated v.store }
  if numTruthy v1.store.sessionId then
    match r with
    | PersistOutcome.ok session =>
        { v1 with lastSavedObjectives := session.learning_objectives.getD updated }
    | PersistOutcome.err => v1
  else
    v1

/-- The persistence step of `runAnalysis`: guarded by
`if (!sessionStore.sessionId) return` (falsy session id, including 0, aborts
with nothing changed), it updates the store from the draft, then tries
`updateSession`; on success it sets the baseline to `objectivesDraft.value`
(the locally sent text, ignoring the server's returned session); on failure
the error is swallowed and the baseline is untouched. -/
def runAnalysisPersist (r : PersistOutcome) (v : ViewState) : ViewState :=
  if numTruthy v.store.sessionId then
    let v1 := { v with store := updateLearningObjectives v.objectivesDraft v.store }
    match r with
    | PersistOutcome.ok _ => { v1 with lastSavedObjectives := v.objectivesDraft }
    | PersistOutcome.err => v1
  else
    v

/-- A concrete view state used to exercise the reconciler: active session 1,
store and baseline hold "a", draft holds "b". -/
def reconcilerExampleState : ViewState :=
  { store :=
      { initialState with
        sessionId := some 1
        courseContext := { emptyForm with learning_objectives := "a" } }
    objectivesDraft := "b"
    lastSavedObjectives := "a"
    hasSavedBaseline := true }

/-- A server response that normalizes the sent objectives: it returns
`learning_objectives = "c"` although the client sent "b". -/
def normalizingServerSession : Session :=
  { id := 1
    course_title := "t"
    level := "undergraduate"
    modality := "online"
    constraints := none
    learning_objectives := some "c"
    created_at := "2024-01-01" }

/-- Claim C1 counterexample: A successful persistence call does not always set
the baseline to the server's returned value: the pre-analysis persist in
`runAnalysis`, with baseline "a", draft "b" ≠ "a", and a server response whose
returned value is "c", sets the baseline to the locally sent draft "b", not to
the server's value "c". -/
theorem runAnalysis_baseline_counterexample :
    normalizingServerSession.learning_objectives = some "c" ∧
    reconcilerExampleState.lastSavedObjectives = "a" ∧
    reconcilerExampleState.objectivesDraft = "b" ∧
    (runAnalysisPersist (PersistOutcome.ok normalizingServerSession)
        reconcilerExampleState).lastSavedObjectives = "b" ∧
    ("b" : String) ≠ "c" := by
  refine ⟨rfl, rfl, rfl, rfl, by decide⟩

/-- Claim C1 amended: With an active session whose id is JS-truthy (non-zero;
a falsy id makes both call sites skip persistence), baseline `B` and draft
`D ≠ B`: a failed persistence call (whether through `persistObjectives` or
through the pre-analysis persist in `runAnalysis`) leaves the baseline at `B`
and the draft at `D`, so the field remains Dirty; a successful
`persistObjectives` call whose server response carries value `S` sets the
baseline to `S`, not to the sent draft; the successful pre-analysis persist in
`runAnalysis` instead sets the baseline to the sent draft `D`. -/
theorem persist_reconciler_amended (v : ViewState) (B D : String) (i : Nat)
    (hid : v.store.sessionId = some i) (hi : i ≠ 0)
    (hB : v.lastSavedObjectives = B) (hD : v.objectivesDraft = D) (hne : D ≠ B) :
    (persistObjectives D PersistOutcome.err v).lastSavedObjectives = B ∧
    (persistObjectives D PersistOutcome.err v).objectivesDraft = D ∧
    isDirty (persistObjectives D PersistOutcome.err v) = true ∧
    (runAnalysisPersist PersistOutcome.err v).lastSavedObjectives = B ∧
    (runAnalysisPersist PersistOutcome.err v).objectivesDraft = D ∧
    isDirty (runAnalysisPersist PersistOutcome.err v) = true ∧
    (∀ session : Session, ∀ S : String,
      session.learning_objectives = some S →
        (persistObjectives D (PersistOutcome.ok session) v).lastSavedObjectives = S) ∧
    (∀ session : Session,
      (runAnalysisPersist (PersistOutcome.ok session) v).lastSavedObjectives = D) := by
  subst hB hD
  refine ⟨?_, ?_, ?_, ?_, ?_, ?_, ?_, ?_⟩
  · simp [persistObjectives, updateLearningObjectives, numTruthy, hid, hi]
  · simp [persistObjectives, updateLearningObjectives, numTruthy, hid, hi]
  · simp [persistObjectives, updateLearningObjectives, numTruthy, hid, hi, isDirty, hne]
  · simp [runAnalysisPersist, updateLearningObjectives, numTruthy, hid, hi]
  · simp [runAnalysisPersist, updateLearningObjectives, numTruthy, hid, hi]
  · simp [runAnalysisPersist, updateLearningObjectives, numTruthy, hid, hi, isDirty, hne]
  · intro session S hS
    simp [persistObjectives, updateLearningObjectives, numTruthy, hid, hi, hS]
  · intro session
    simp [runAnalysisPersist, updateLearningObjectives, numTruthy, hid, hi]

/-- Witness for `persist_reconciler_amended` at the concrete reconciler
example state (session id 1, truthy). -/
theorem persist_reconciler_amended_witness :
    (persistObjectives "b" PersistOutcome.err reconcilerExampleState).lastSavedObjectives = "a" ∧
    (persistObjectives "b" PersistOutcome.err reconcilerExampleState).objectivesDraft = "b" ∧
    isDirty (persistObjectives "b" PersistOutcome.err reconcilerExampleState) = true ∧
    (runAnalysisPersist PersistOutcome.err reconcilerExampleState).lastSavedObjectives = "a" ∧
    (runAnalysisPersist PersistOutcome.err reconcilerExampleState).objectivesDraft = "b" ∧
    isDirty (runAnalysisPersist PersistOutcome.err reconcilerExampleState) = true ∧
    (∀ session : Session, ∀ S : String,
      session.learning_objectives = some S →
        (persistObjectives "b" (PersistOutcome.ok session) reconcilerExampleState).lastSavedObjectives = S) ∧
    (∀ session : Session,
      (runAnalysisPersist (PersistOutcome.ok session) reconcilerExampleState).lastSavedObjectives = "b") :=
  persist_reconciler_amended reconcilerExampleState "a" "b" 1 rfl (by decide) rfl rfl (by decide)

/-- Claim C4: Once the baseline is established, a store-side change of the
canonical learning-objectives value refreshes the local draft when the field
is Clean (draft equals baseline, only the draft changes), and is ignored
entirely when the field is Dirty. -/
theorem external_sync_clean_dirty (v : ViewState) (h : v.hasSavedBaseline = true) :
    (isDirty v = false →
      watchLearningObjectives v
        = { v with objectivesDraft := v.store.courseContext.learning_objectives }) ∧
    (isDirty v = true → watchLearningObjectives v = v) := by
  constructor
  · intro hclean
    simp [watchLearningObjectives, h, hclean]
  · intro hdirty
    simp [watchLearningObjectives, h, hdirty]

/-- Witness for `external_sync_clean_dirty`: the concrete reconciler example
state is Dirty, so the watcher leaves it unchanged. -/
theorem external_sync_clean_dirty_witness :
    watchLearningObjectives reconcilerExampleState = reconcilerExampleState :=
  (external_sync_clean_dirty reconcilerExampleState rfl).2 rfl

/-! ## Text utility (utils/text.ts)

`stripMarkdown` is a pipeline of JavaScript regex `replace` calls followed by
`trim()`.  Each global replace is embedded as a left-to-right scanner over
`List Char` implementing the (deterministic) match semantics of its regex;
scanners carry a fuel argument equal to the input length, which suffices since
every step consumes at least one character. -/

/-- The JavaScript `\s` class (also the character set removed by
`String.prototype.trim`): whitespace and line terminators. -/
def jsWhitespace (c : Char) : Bool :=
  c == '\t' || c == '\n' || c == Char.ofNat 11 || c == Char.ofNat 12 || c == '\r' ||
  c == ' ' || c == Char.ofNat 160 || c == Char.ofNat 0x1680 ||
  (0x2000 ≤ c.toNat && c.toNat ≤ 0x200A) ||
  c == Char.ofNat 0x2028 || c == Char.ofNat 0x2029 || c == Char.ofNat 0x202F ||
  c == Char.ofNat 0x205F || c == Char.ofNat 0x3000 || c == Char.ofNat 0xFEFF

/-- JavaScript line terminators, the characters at which multiline `^`/`$`
anchor. -/
def isLineTerm (c : Char) : Bool :=
  c == '\n' || c == '\r' || c == Char.ofNat 0x2028 || c == Char.ofNat 0x2029

/-- Remove a trailing run of JS whitespace. -/
def dropTrailingWS : List Char → List Char
  | [] => []
  | c :: cs =>
    match dropTrailingWS cs with
    | [] => if jsWhitespace c then [] else [c]
    | d :: ds => c :: d :: ds

/-- JavaScript `String.prototype.trim`. -/
def trimJS (l : List Char) : List Char :=
  dropTrailingWS (l.dropWhile jsWhitespace)

/-- Split a block at the first occurrence of three consecutive backticks,
implementing the lazy `[\s\S]*?` before the closing fence. -/
def findFenceClose : List Char → Option (List Char × List Char)
  | '`' :: '`' :: '`' :: rest => some ([], rest)
  | c :: rest =>
    match findFenceClose rest with
    | some (pre, post) => some (c :: pre, post)
    | none => none
  | [] => none

/-- One global pass of `/```[a-zA-Z]*\n?/g` → `''` inside a fenced block. -/
def removeFenceOpenGo : Nat → List Char → List Char
  | 0, l => l
  | _ + 1, [] => []
  | fuel + 1, '`' :: '`' :: '`' :: rest =>
    let langRest := rest.dropWhile Char.isAlpha
    match langRest with
    | '\n' :: r2 => removeFenceOpenGo fuel r2
    | r2 => removeFenceOpenGo fuel r2
  | fuel + 1, c :: cs => c :: removeFenceOpenGo fuel cs

/-- One global pass of `` /```/g `` → `''` inside a fenced block. -/
def removeTicks3Go : Nat → List Char → List Char
  | 0, l => l
  | _ + 1, [] => []
  | fuel + 1, '`' :: '`' :: '`' :: rest => removeTicks3Go fuel rest
  | fuel + 1, c :: cs => c :: removeTicks3Go fuel cs

/-- The replacement callback for code fences:
`block.replace(/```[a-zA-Z]*\n?/g, '').replace(/```/g, '')`. -/
def cleanFenceBlock (block : List Char) : List Char :=
  let a := removeFenceOpenGo block.length block
  removeTicks3Go a.length a

/-- Global scanner for `` /``` [\s\S]*? ``` /g `` with the fence-cleaning
callback as replacement. -/
def replaceFencesGo : Nat → List Char → List Char
  | 0, l => l
  | _ + 1, [] => []
  | fuel + 1, '`' :: '`' :: '`' :: rest =>
    match findFenceClose rest with
    | some (inner, post) =>
      cleanFenceBlock ('`' :: '`' :: '`' :: (inner ++ ['`', '`', '`']))
        ++ replaceFencesGo fuel post
    | none => '`' :: replaceFencesGo fuel ('`' :: '`' :: rest)
  | fuel + 1, c :: cs => c :: replaceFencesGo fuel cs

/-- Code-fence stage of `stripMarkdown`. -/
def replaceFences (l : List Char) : List Char :=
  replaceFencesGo l.length l

/-- Match `/\[([^\]]+)\]\(([^)]+)\)/` at the head, returning the replacement
`$1` and the rest. -/
def matchLink : List Char → Option (List Char × List Char)
  | '[' :: rest =>
    let text := rest.takeWhile (fun c => c != ']')
    if text.isEmpty then none
    else
      match rest.dropWhile (fun c => c != ']') with
      | ']' :: '(' :: r2 =>
        let url := r2.takeWhile (fun c => c != ')')
        if url.isEmpty then none
        else
          match r2.dropWhile (fun c => c != ')') with
          | ')' :: r3 => some (text, r3)
          | _ => none
      | _ => none
  | _ => none

/-- Match ``/`([^`]+)`/`` at the head, returning the replacement `$1` and the
rest. -/
def matchInlineCode : List Char → Option (List Char × List Char)
  | '`' :: rest =>
    let content := rest.takeWhile (fun c => c != '`')
    if content.isEmpty then none
    else
      match rest.dropWhile (fun c => c != '`') with
      | '`' :: r2 => some (content, r2)
      | _ => none
  | _ => none

/-- Match a two-character emphasis delimiter pair (`**…**` or `__…__`) at the
head, returning the inner text and the rest. -/
def matchDelim2 (d : Char) : List Char → Option (List Char × List Char)
  | a :: b :: rest =>
    if a = d ∧ b = d then
      let content := rest.takeWhile (fun c => c != d)
      if content.isEmpty then none
      else
        match rest.dropWhile (fun c => c != d) with
        | x :: y :: r2 => if x = d ∧ y = d then some (content, r2) else none
        | _ => none
    else none
  | _ => none

/-- Match a one-character emphasis delimiter pair (`*…*` or `_…_`) at the
head, returning the inner text and the rest. -/
def matchDelim1 (d : Char) : List Char → Option (List Char × List Char)
  | a :: rest =>
    if a = d then
      let content := rest.takeWhile (fun c => c != d)
      if content.isEmpty then none
      else
        match rest.dropWhile (fun c => c != d) with
        | x :: r2 => if x = d then some (content, r2) else none
        | _ => none
    else none
  | _ => none

/-- Generic global-replace scanner: at each position try the matcher; on a
match emit its replacement and continue after the match, otherwise advance one
character. -/
def scanReplace (m : List Char → Option (List Char × List Char)) :
    Nat → List Char → List Char
  | 0, l => l
  | _ + 1, [] => []
  | fuel + 1, c :: cs =>
    match m (c :: cs) with
    | some (repl, rest) => repl ++ scanReplace m fuel rest
    | none => c :: scanReplace m fuel cs

/-- Whether the last character consumed by an anchored match is a line
terminator (so the next position is again a `^` position). -/
def endsWithLineTerm (consumed : List Char) : Bool :=
  match consumed.getLast? with
  | some c => isLineTerm c
  | none => false

/-- Generic multiline-anchored removal scanner: the matcher is only tried at
`^` positions (start of input or just after a line terminator); a match is
deleted and scanning resumes after it. -/
def scanRemoveAnchored (m : List Char → Option (List Char × List Char)) :
    Nat → Bool → List Char → List Char
  | 0, _, l => l
  | _ + 1, _, [] => []
  | fuel + 1, atStart, c :: cs =>
    if atStart then
      match m (c :: cs) with
      | some (consumed, rest) =>
        scanRemoveAnchored m fuel (endsWithLineTerm consumed) rest
      | none => c :: scanRemoveAnchored m fuel (isLineTerm c) cs
    else c :: scanRemoveAnchored m fuel (isLineTerm c) cs

/-- Match `/^\s{0,3}#{1,6}\s+/` at a `^` position, returning the consumed text
and the rest.  The greedy quantifiers admit no successful backtracking: more
than 3 leading whitespace characters or more than 6 hashes can never match. -/
def matchHeading (l : List Char) : Option (List Char × List Char) :=
  let ws := l.takeWhile jsWhitespace
  if ws.length > 3 then none
  else
    let r1 := l.dropWhile jsWhitespace
    let hs := r1.takeWhile (fun c => c == '#')
    if hs.isEmpty || hs.length > 6 then none
    else
      let r2 := r1.dropWhile (fun c => c == '#')
      let ws2 := r2.takeWhile jsWhitespace
      if ws2.isEmpty then none
      else some (ws ++ hs ++ ws2, r2.dropWhile jsWhitespace)

/-- Match `/^\s{0,3}>\s?/` at a `^` position. -/
def matchBlockquote (l : List Char) : Option (List Char × List Char) :=
  let ws := l.takeWhile jsWhitespace
  if ws.length > 3 then none
  else
    match l.dropWhile jsWhitespace with
    | '>' :: r2 =>
      match r2 with
      | c :: r3 => if jsWhitespace c then some (ws ++ '>' :: [c], r3)
                   else some (ws ++ ['>'], r2)
      | [] => some (ws ++ ['>'], [])
    | _ => none

/-- Match `/^\s*(?:[-*•]|\d+\.)\s+/` at a `^` position: optional leading
whitespace, a bullet or a digit run followed by a dot, then at least one
whitespace character.  Shared by `stripMarkdown` (multiline-global) and
`normalizeObjectiveLine` (anchored, single). -/
def matchListMarker (l : List Char) : Option (List Char × List Char) :=
  match l.dropWhile jsWhitespace with
  | [] => none
  | c :: r2 =>
    if c = '-' ∨ c = '*' ∨ c = '•' then
      if (r2.takeWhile jsWhitespace).isEmpty then none
      else some (l.takeWhile jsWhitespace ++ c :: r2.takeWhile jsWhitespace,
                 r2.dropWhile jsWhitespace)
    else
      if ((c :: r2).takeWhile Char.isDigit).isEmpty then none
      else
        match (c :: r2).drop ((c :: r2).takeWhile Char.isDigit).length with
        | '.' :: r3 =>
          if (r3.takeWhile jsWhitespace).isEmpty then none
          else some (l.takeWhile jsWhitespace ++ (c :: r2).takeWhile Char.isDigit
                      ++ '.' :: r3.takeWhile jsWhitespace,
                     r3.dropWhile jsWhitespace)
        | _ => none

/-- Scanner for `/[ \t]+$/gm` → `''`: a run of spaces/tabs is removed exactly
when it is immediately followed by a line terminator or the end of input. -/
def stripLineTrailingGo : Nat → List Char → List Char
  | 0, l => l
  | _ + 1, [] => []
  | fuel + 1, c :: cs =>
    if c = ' ' ∨ c = '\t' then
      let run := (c :: cs).takeWhile (fun x => x == ' ' || x == '\t')
      let rest := (c :: cs).dropWhile (fun x => x == ' ' || x == '\t')
      match rest with
      | [] => stripLineTrailingGo fuel rest
      | d :: _ =>
        if isLineTerm d then stripLineTrailingGo fuel rest
        else run ++ stripLineTrailingGo fuel rest
    else c :: stripLineTrailingGo fuel cs

/-- Run a global-replace scanner over a whole input, with fuel equal to the
input length. -/
def runScan (m : List Char → Option (List Char × List Char)) (l : List Char) : List Char :=
  scanReplace m l.length l

/-- Run a multiline-anchored removal scanner over a whole input, starting at a
`^` position, with fuel equal to the input length. -/
def runScanAnchored (m : List Char → Option (List Char × List Char)) (l : List Char) : List Char :=
  scanRemoveAnchored m l.length true l

/-- The `/[ \t]+$/gm` stage over a whole input. -/
def stripLineTrailing (l : List Char) : List Char :=
  stripLineTrailingGo l.length l

/-- The eleven replace stages of `stripMarkdown`, in source order, before the
final `trim()`. -/
def pipelineL (l : List Char) : List Char :=
  stripLineTrailing
    (runScan (matchDelim1 '_')
      (runScan (matchDelim1 '*')
        (runScan (matchDelim2 '_')
          (runScan (matchDelim2 '*')
            (runScanAnchored matchListMarker
              (runScanAnchored matchBlockquote
                (runScanAnchored matchHeading
                  (runScan matchInlineCode
                    (runScan matchLink
                      (replaceFences l))))))))))

/-- Model of `stripMarkdown` from utils/text.ts: the full replace pipeline followed by
`trim()`. -/
def stripMarkdown (s : String) : String :=
  (trimJS (pipelineL s.data)).asString

/-- Claim C5: The markdown-stripping transform on the spec's scenario input
yields exactly the spec's scenario output. -/
theorem stripMarkdown_scenario :
    stripMarkdown "**bold** and `code` and [link](url)" = "bold and code and link" := by
  decide

theorem data_asString (l : List Char) : (List.asString l).data = l := rfl

/-- A list is edge-trimmed when neither its first nor its last character is JS
whitespace. -/
def edgeTrimmed (l : List Char) : Bool :=
  l.head?.all (fun c => !jsWhitespace c) && l.getLast?.all (fun c => !jsWhitespace c)

theorem head?_dropWhile_ws (l : List Char) (c : Char)
    (h : (l.dropWhile jsWhitespace).head? = some c) : jsWhitespace c = false := by
  induction l with
  | nil => simp at h
  | cons a as ih =>
    by_cases ha : jsWhitespace a
    · rw [List.dropWhile_cons_of_pos ha] at h
      exact ih h
    · rw [List.dropWhile_cons_of_neg ha] at h
      simp at h
      subst h
      simpa using ha

theorem head?_dropTrailingWS (l : List Char) (c : Char)
    (h : (dropTrailingWS l).head? = some c) : l.head? = some c := by
  cases l with
  | nil => simp [dropTrailingWS] at h
  | cons a as =>
    rw [dropTrailingWS] at h
    rcases hrec : dropTrailingWS as with _ | ⟨d, ds⟩
    · rw [hrec] at h
      by_cases hws : jsWhitespace a
      · simp [hws] at h
      · simp [hws] at h
        simp [h]
    · rw [hrec] at h
      simp at h
      simp [h]

theorem getLast?_dropTrailingWS (l : List Char) (c : Char)
    (h : (dropTrailingWS l).getLast? = some c) : jsWhitespace c = false := by
  induction l with
  | nil => simp [dropTrailingWS] at h
  | cons a as ih =>
    rw [dropTrailingWS] at h
    rcases hrec : dropTrailingWS as with _ | ⟨d, ds⟩
    · rw [hrec] at h
      by_cases hws : jsWhitespace a
      · simp [hws] at h
      · simp [hws] at h
        subst h
        simpa using hws
    · rw [hrec] at h
      rw [List.getLast?_cons_cons] at h
      rw [← hrec] at h
      exact ih h

theorem edgeTrimmed_trimJS (l : List Char) : edgeTrimmed (trimJS l) = true := by
  rw [edgeTrimmed, Bool.and_eq_true]
  constructor
  · rcases hhd : (trimJS l).head? with _ | ⟨c⟩
    · simp
    · simp only [Option.all_some]
      have := head?_dropTrailingWS _ _ hhd
      rw [head?_dropWhile_ws l c this]
      rfl
  · rcases hlast : (trimJS l).getLast? with _ | ⟨c⟩
    · simp
    · simp only [Option.all_some]
      rw [getLast?_dropTrailingWS _ _ hlast]
      rfl

/-- Claim C10: `stripMarkdown` is total: it maps the empty string to the empty
string, and for every input the result carries no leading or trailing JS
whitespace. -/
theorem stripMarkdown_total_trimmed :
    stripMarkdown "" = "" ∧
    ∀ t : String, edgeTrimmed (stripMarkdown t).data = true := by
  constructor
  · rfl
  · intro t
    simp only [stripMarkdown, data_asString]
    exact edgeTrimmed_trimJS _

/-! ## Export downloads (services/api.ts) -/

/-- Model of `new Date().toISOString().split('T')[0]`: the part of an ISO timestamp
before the first `'T'`. -/
def isoDatePart (iso : String) : String :=
  (iso.data.takeWhile (fun c => c != 'T')).asString

/-- The `link.download` filename assigned by `downloadSessionExportDocx`. -/
def docxFilename (sessionId : Nat) (iso : String) : String :=
  "id-dss-session-" ++ toString sessionId ++ "-" ++ isoDatePart iso ++ ".docx"

/-- The `link.download` filename assigned by `downloadSessionExportPdf`. -/
def pdfFilename (sessionId : Nat) (iso : String) : String :=
  "id-dss-session-" ++ toString sessionId ++ "-" ++ isoDatePart iso ++ ".pdf"

theorem takeWhile_until_T (d rest : List Char) (h : ∀ c ∈ d, c ≠ 'T') :
    (d ++ 'T' :: rest).takeWhile (fun c => c != 'T') = d := by
  induction d with
  | nil => simp [List.takeWhile]
  | cons a as ih =>
    have ha : a ≠ 'T' := h a (List.mem_cons_self a as)
    have has : ∀ c ∈ as, c ≠ 'T' := fun c hc => h c (List.mem_cons_of_mem a hc)
    simp only [List.cons_append, List.takeWhile_cons]
    simp [ha, ih has]

theorem isoDatePart_of_wellformed (d rest : String) (h : ∀ c ∈ d.data, c ≠ 'T') :
    isoDatePart (d ++ "T" ++ rest) = d := by
  have hdata : (d ++ "T" ++ rest).data = d.data ++ 'T' :: rest.data := by
    simp [String.data_append]
  rw [isoDatePart, hdata, takeWhile_until_T d.data rest.data h]
  exact String.asString_toList d

/-- Claim C8: For every session id and every well-formed ISO timestamp
`d ++ "T" ++ rest` (the date part `d` contains no `'T'`), the Word and PDF
export downloads assign the filename
`id-dss-session-{id}-{date}.{ext}` with `{date}` the part of the timestamp
before the `'T'` and `{ext}` equal to `docx` / `pdf` respectively. -/
theorem export_filename_pattern (sessionId : Nat) (d rest : String)
    (h : ∀ c ∈ d.data, c ≠ 'T') :
    docxFilename sessionId (d ++ "T" ++ rest)
      = "id-dss-session-" ++ toString sessionId ++ "-" ++ d ++ ".docx" ∧
    pdfFilename sessionId (d ++ "T" ++ rest)
      = "id-dss-session-" ++ toString sessionId ++ "-" ++ d ++ ".pdf" := by
  rw [docxFilename, pdfFilename, isoDatePart_of_wellformed d rest h]
  exact ⟨rfl, rfl⟩

/-- Witness for `export_filename_pattern` at session 7 on 2024-01-02. -/
theorem export_filename_pattern_witness :
    docxFilename 7 ("2024-01-02" ++ "T" ++ "03:04:05.000Z")
      = "id-dss-session-" ++ toString 7 ++ "-" ++ "2024-01-02" ++ ".docx" ∧
    pdfFilename 7 ("2024-01-02" ++ "T" ++ "03:04:05.000Z")
      = "id-dss-session-" ++ toString 7 ++ "-" ++ "2024-01-02" ++ ".pdf" :=
  export_filename_pattern 7 "2024-01-02" "03:04:05.000Z" (by decide)

/-! ## Objectives-list normalization (views/CourseContextView.vue, context form)

`normalizeObjectiveLine`, `parseObjectivesText` and `joinObjectives` operate
on newline-separated objective lists.  The anchored single replace in
`normalizeObjectiveLine` uses the same `/^\s*(?:[-*•]|\d+\.)\s+/` match as the
multiline stage of `stripMarkdown` (`matchListMarker`). -/

/-- Model of `text.replace(/\r\n/g, '\n')`. -/
def replaceCRLF : List Char → List Char
  | [] => []
  | [c] => [c]
  | c :: d :: rest =>
    if c = '\r' ∧ d = '\n' then '\n' :: replaceCRLF rest
    else c :: replaceCRLF (d :: rest)

/-- Prepend a character to the first segment of a split result. -/
def consHead (c : Char) : List (List Char) → List (List Char)
  | [] => [[c]]
  | g :: gs => (c :: g) :: gs

/-- Model of `String.prototype.split('\n')` on character lists: always returns at least
one (possibly empty) segment. -/
def splitOnNl : List Char → List (List Char)
  | [] => [[]]
  | c :: cs =>
    if c = '\n' then [] :: splitOnNl cs
    else consHead c (splitOnNl cs)

/-- Model of `Array.prototype.join('\n')` on character lists. -/
def intercalateNl : List (List Char) → List Char
  | [] => []
  | [x] => x
  | x :: y :: rest => x ++ '\n' :: intercalateNl (y :: rest)

/-- Model of `line.replace(/^\s*(?:[-*•]|\d+\.)\s+/, '')`: the anchored, non-global
replace strips at most one leading list marker. -/
def stripListMarker (l : List Char) : List Char :=
  match matchListMarker l with
  | some (_, rest) => rest
  | none => l

/-- Model of `normalizeObjectiveLine` on character lists: strip one leading list
marker, then `trim()`. -/
def normalizeLineL (l : List Char) : List Char :=
  trimJS (stripListMarker l)

/-- Model of `normalizeObjectiveLine(line)` from CourseContextView.vue. -/
def normalizeObjectiveLine (line : String) : String :=
  (normalizeLineL line.data).asString

/-- Model of `parseObjectivesText` on character lists: normalize CRLF, trim, and if
non-empty split on newlines, normalize each line and drop empties. -/
def parseObjectivesL (l : List Char) : List (List Char) :=
  if trimJS (replaceCRLF l) = [] then []
  else ((splitOnNl (trimJS (replaceCRLF l))).map normalizeLineL).filter (fun x => !x.isEmpty)

/-- Model of `parseObjectivesText(text)` from CourseContextView.vue. -/
def parseObjectivesText (text : String) : List String :=
  (parseObjectivesL text.data).map List.asString

/-- Model of `joinObjectives` on character lists: normalize each line, drop empties,
join with newlines. -/
def joinObjectivesL (ls : List (List Char)) : List Char :=
  intercalateNl ((ls.map normalizeLineL).filter (fun x => !x.isEmpty))

/-- Model of `joinObjectives(lines)` from CourseContextView.vue. -/
def joinObjectives (lines : List String) : String :=
  (joinObjectivesL (lines.map String.data)).asString

/-- Claim C9 counterexample: The normalization round-trip is not idempotent:
on `"- - x"` a single parse strips one marker layer, giving `["- x"]`, while
the round-trip re-applies `normalizeObjectiveLine` and strips a second layer,
giving `["x"]`. -/
theorem parse_join_not_idempotent :
    parseObjectivesText "- - x" = ["- x"] ∧
    parseObjectivesText (joinObjectives (parseObjectivesText "- - x")) = ["x"] ∧
    parseObjectivesText (joinObjectives (parseObjectivesText "- - x"))
      ≠ parseObjectivesText "- - x" := by
  refine ⟨by decide, by decide, by decide⟩

theorem splitOnNl_ne_nil (l : List Char) : splitOnNl l ≠ [] := by
  cases l with
  | nil => simp [splitOnNl]
  | cons c cs =>
    rw [splitOnNl]
    by_cases hc : c = '\n'
    · simp [hc]
    · rw [if_neg hc]
      rcases h : splitOnNl cs with _ | ⟨g, gs⟩ <;> simp [consHead]

theorem splitOnNl_cons_nl (t : List Char) : splitOnNl ('\n' :: t) = [] :: splitOnNl t := by
  rw [splitOnNl, if_pos rfl]

theorem mem_splitOnNl_no_nl (l : List Char) (g : List Char)
    (hg : g ∈ splitOnNl l) : '\n' ∉ g := by
  induction l generalizing g with
  | nil =>
    simp [splitOnNl] at hg
    simp [hg]
  | cons c cs ih =>
    rw [splitOnNl] at hg
    by_cases hc : c = '\n'
    · rw [if_pos hc] at hg
      rcases List.mem_cons.mp hg with hge | hge
      · simp [hge]
      · exact ih g hge
    · rw [if_neg hc] at hg
      rcases h : splitOnNl cs with _ | ⟨g0, gs0⟩
      · exact absurd h (splitOnNl_ne_nil cs)
      · rw [h, consHead] at hg
        rcases List.mem_cons.mp hg with hge | hge
        · subst hge
          intro hmem
          rcases List.mem_cons.mp hmem with he | he
          · exact hc he.symm
          · exact ih g0 (h ▸ List.mem_cons_self g0 gs0) he
        · exact ih g (h ▸ List.mem_cons_of_mem g0 hge)

theorem matchListMarker_rest_suffix (l con rest : List Char)
    (h : matchListMarker l = some (con, rest)) : rest <:+ l := by
  rw [matchListMarker] at h
  split at h
  · exact absurd h (by simp)
  · rename_i c r2 heq
    have hsuf1 : c :: r2 <:+ l := heq ▸ List.dropWhile_suffix jsWhitespace
    split at h
    · split at h
      · exact absurd h (by simp)
      · simp only [Option.some.injEq, Prod.mk.injEq] at h
        rw [← h.2]
        exact ((List.dropWhile_suffix jsWhitespace).trans (List.suffix_cons c r2)).trans hsuf1
    · split at h
      · exact absurd h (by simp)
      · split at h
        · rename_i r3 heq3
          split at h
          · exact absurd h (by simp)
          · simp only [Option.some.injEq, Prod.mk.injEq] at h
            rw [← h.2]
            have hs3 : '.' :: r3 <:+ c :: r2 := heq3 ▸ List.drop_suffix _ _
            exact (((List.dropWhile_suffix jsWhitespace).trans
              (List.suffix_cons '.' r3)).trans hs3).trans hsuf1
        · exact absurd h (by simp)

theorem stripListMarker_subset (l : List Char) : stripListMarker l ⊆ l := by
  rw [stripListMarker]
  rcases h : matchListMarker l with _ | ⟨con, rest⟩
  · exact fun c hc => hc
  · exact (matchListMarker_rest_suffix l con rest h).subset

theorem mem_dropTrailingWS (l : List Char) (c : Char)
    (h : c ∈ dropTrailingWS l) : c ∈ l := by
  induction l with
  | nil => simp [dropTrailingWS] at h
  | cons a as ih =>
    rw [dropTrailingWS] at h
    rcases hrec : dropTrailingWS as with _ | ⟨d, ds⟩
    · rw [hrec] at h
      by_cases hws : jsWhitespace a
      · simp [hws] at h
      · simp [hws] at h
        simp [h]
    · rw [hrec] at h
      rcases List.mem_cons.mp h with he | he
      · simp [he]
      · exact List.mem_cons_of_mem a (ih (hrec ▸ he))

theorem trimJS_subset (l : List Char) : trimJS l ⊆ l := by
  intro c hc
  exact (List.dropWhile_suffix jsWhitespace).subset (mem_dropTrailingWS _ c hc)

theorem normalizeLineL_subset (l : List Char) : normalizeLineL l ⊆ l := by
  intro c hc
  exact stripListMarker_subset l (trimJS_subset _ hc)

theorem dropWhile_eq_self_of_head (l : List Char) (p : Char → Bool)
    (h : l.head?.all (fun c => !p c) = true) : l.dropWhile p = l := by
  cases l with
  | nil => rfl
  | cons a as =>
    simp at h
    simp [List.dropWhile_cons, h]

theorem dropTrailingWS_eq_self (l : List Char)
    (h : l.getLast?.all (fun c => !jsWhitespace c) = true) : dropTrailingWS l = l := by
  induction l with
  | nil => rfl
  | cons a as ih =>
    rw [dropTrailingWS]
    cases as with
    | nil =>
      simp at h
      simp [dropTrailingWS, h]
    | cons b bs =>
      rw [List.getLast?_cons_cons] at h
      rw [ih h]

theorem trimJS_eq_self (l : List Char) (h : edgeTrimmed l = true) : trimJS l = l := by
  rw [edgeTrimmed, Bool.and_eq_true] at h
  rw [trimJS, dropWhile_eq_self_of_head l jsWhitespace h.1, dropTrailingWS_eq_self l h.2]

theorem replaceCRLF_cons_cons (c d : Char) (t : List Char) (h : ¬(c = '\r' ∧ d = '\n')) :
    replaceCRLF (c :: d :: t) = c :: replaceCRLF (d :: t) := by
  rw [replaceCRLF, if_neg h]

theorem replaceCRLF_cons (c : Char) (t : List Char) (h : c ≠ '\r') :
    replaceCRLF (c :: t) = c :: replaceCRLF t := by
  cases t with
  | nil => rfl
  | cons d ds => exact replaceCRLF_cons_cons c d ds (fun hc => h hc.1)

theorem replaceCRLF_no_nl (l : List Char) (h : '\n' ∉ l) : replaceCRLF l = l := by
  induction l with
  | nil => rfl
  | cons a as ih =>
    have has : '\n' ∉ as := fun hm => h (List.mem_cons_of_mem a hm)
    cases as with
    | nil => rfl
    | cons b bs =>
      have hb : b ≠ '\n' := by
        intro hb
        exact has (hb ▸ List.mem_cons_self b bs)
      rw [replaceCRLF_cons_cons a b bs (fun hc => hb hc.2), ih has]

theorem replaceCRLF_append_nl (x t : List Char) (hx : '\n' ∉ x)
    (hlast : x.getLast? ≠ some '\r') :
    replaceCRLF (x ++ '\n' :: t) = x ++ '\n' :: replaceCRLF t := by
  induction x with
  | nil =>
    simp only [List.nil_append]
    cases t with
    | nil => rfl
    | cons d ds =>
      exact replaceCRLF_cons_cons '\n' d ds (fun hc => by simpa using hc.1)
  | cons a x2 ih =>
    have hx2 : '\n' ∉ x2 := fun hm => hx (List.mem_cons_of_mem a hm)
    cases x2 with
    | nil =>
      have ha : a ≠ '\r' := by
        intro hr
        exact hlast (by simp [hr])
      simp only [List.cons_append, List.nil_append]
      rw [replaceCRLF_cons_cons a '\n' t (fun hc => ha hc.1)]
      have := ih (by simp) (by simp)
      simpa using this
    | cons b bs =>
      have hb : b ≠ '\n' := by
        intro hb
        exact hx2 (hb ▸ List.mem_cons_self b bs)
      have hlast2 : (b :: bs).getLast? ≠ some '\r' := by
        rw [← List.getLast?_cons_cons (a := a)]
        exact hlast
      simp only [List.cons_append]
      rw [replaceCRLF_cons_cons a b (bs ++ '\n' :: t) (fun hc => hb hc.2)]
      have := ih hx2 hlast2
      simp only [List.cons_append] at this
      rw [this]

theorem replaceCRLF_intercalate (L : List (List Char))
    (h : ∀ x ∈ L, '\n' ∉ x ∧ x.getLast? ≠ some '\r') :
    replaceCRLF (intercalateNl L) = intercalateNl L := by
  induction L with
  | nil => rfl
  | cons g gs ih =>
    cases gs with
    | nil => exact replaceCRLF_no_nl g (h g (List.mem_cons_self g [])).1
    | cons g2 gs2 =>
      rw [intercalateNl]
      rw [replaceCRLF_append_nl g _ (h g (List.mem_cons_self g _)).1
        (h g (List.mem_cons_self g _)).2]
      rw [ih (fun x hx => h x (List.mem_cons_of_mem g hx))]

theorem head?_intercalate_cons (g : List Char) (gs : List (List Char)) (hg : g ≠ []) :
    (intercalateNl (g :: gs)).head? = g.head? := by
  cases gs with
  | nil => rfl
  | cons g2 gs2 =>
    rw [intercalateNl]
    cases g with
    | nil => exact absurd rfl hg
    | cons a as => simp

theorem intercalate_cons_ne_nil (g : List Char) (gs : List (List Char)) (hg : g ≠ []) :
    intercalateNl (g :: gs) ≠ [] := by
  cases gs with
  | nil => exact hg
  | cons g2 gs2 =>
    rw [intercalateNl]
    cases g with
    | nil => simp
    | cons a as => simp

theorem getLast?_intercalate_not_ws (L : List (List Char))
    (h : ∀ x ∈ L, x ≠ [] ∧ edgeTrimmed x = true) :
    (intercalateNl L).getLast?.all (fun c => !jsWhitespace c) = true := by
  induction L with
  | nil => rfl
  | cons g gs ih =>
    cases gs with
    | nil =>
      have := (h g (List.mem_cons_self g [])).2
      rw [edgeTrimmed, Bool.and_eq_true] at this
      exact this.2
    | cons g2 gs2 =>
      rw [intercalateNl, List.getLast?_append_cons]
      have hne : intercalateNl (g2 :: gs2) ≠ [] :=
        intercalate_cons_ne_nil g2 gs2
          (h g2 (List.mem_cons_of_mem g (List.mem_cons_self g2 gs2))).1
      rcases hrest : intercalateNl (g2 :: gs2) with _ | ⟨r, rs⟩
      · exact absurd hrest hne
      · rw [List.getLast?_cons_cons, ← hrest]
        exact ih (fun x hx => h x (List.mem_cons_of_mem g hx))

theorem edgeTrimmed_intercalate (L : List (List Char))
    (h : ∀ x ∈ L, x ≠ [] ∧ edgeTrimmed x = true) :
    edgeTrimmed (intercalateNl L) = true := by
  cases L with
  | nil => rfl
  | cons g gs =>
    rw [edgeTrimmed, Bool.and_eq_true]
    constructor
    · rw [head?_intercalate_cons g gs (h g (List.mem_cons_self g gs)).1]
      have := (h g (List.mem_cons_self g gs)).2
      rw [edgeTrimmed, Bool.and_eq_true] at this
      exact this.1
    · exact getLast?_intercalate_not_ws _ h

theorem splitOnNl_append_no_nl (x cs g : List Char) (gs : List (List Char))
    (hx : '\n' ∉ x) (h : splitOnNl cs = g :: gs) :
    splitOnNl (x ++ cs) = (x ++ g) :: gs := by
  induction x with
  | nil => simpa using h
  | cons a x2 ih =>
    have ha : a ≠ '\n' := fun he => hx (he ▸ List.mem_cons_self a x2)
    simp only [List.cons_append]
    rw [splitOnNl, if_neg ha, ih (fun hm => hx (List.mem_cons_of_mem a hm)), consHead]

theorem splitOnNl_intercalate (gs : List (List Char)) (g : List Char)
    (h : ∀ x ∈ g :: gs, '\n' ∉ x) :
    splitOnNl (intercalateNl (g :: gs)) = g :: gs := by
  induction gs generalizing g with
  | nil =>
    have := splitOnNl_append_no_nl g [] [] [] (h g (List.mem_cons_self g [])) rfl
    simpa using this
  | cons g2 gs2 ih =>
    rw [intercalateNl]
    have h2 : splitOnNl ('\n' :: intercalateNl (g2 :: gs2)) = [] :: g2 :: gs2 := by
      rw [splitOnNl_cons_nl, ih g2 (fun x hx => h x (List.mem_cons_of_mem g hx))]
    rw [splitOnNl_append_no_nl g _ [] (g2 :: gs2) (h g (List.mem_cons_self g _)) h2]
    simp

theorem map_id_of_mem {α : Type} (l : List α) (f : α → α) (h : ∀ x ∈ l, f x = x) :
    l.map f = l := by
  induction l with
  | nil => rfl
  | cons a as ih =>
    rw [List.map_cons, h a (List.mem_cons_self a as),
      ih (fun x hx => h x (List.mem_cons_of_mem a hx))]

theorem edgeTrimmed_getLast_ne_cr (x : List Char) (h : edgeTrimmed x = true) :
    x.getLast? ≠ some '\r' := by
  intro hr
  rw [edgeTrimmed, Bool.and_eq_true] at h
  have := h.2
  rw [hr] at this
  simp only [Option.all_some] at this
  rw [show jsWhitespace '\r' = true from rfl] at this
  simp at this

theorem parseObjectivesL_elem (l x : List Char) (hx : x ∈ parseObjectivesL l) :
    x ≠ [] ∧ '\n' ∉ x ∧ edgeTrimmed x = true := by
  rw [parseObjectivesL] at hx
  by_cases hraw : trimJS (replaceCRLF l) = []
  · rw [if_pos hraw] at hx
    simp at hx
  · rw [if_neg hraw] at hx
    have hx2 := List.mem_filter.mp hx
    obtain ⟨g, hg, hgx⟩ := List.mem_map.mp hx2.1
    refine ⟨?_, ?_, ?_⟩
    · intro he
      rw [he] at hx2
      simp at hx2
    · intro hmem
      refine mem_splitOnNl_no_nl _ g hg (normalizeLineL_subset g ?_)
      rw [hgx]
      exact hmem
    · rw [← hgx, normalizeLineL]
      exact edgeTrimmed_trimJS _

theorem parse_intercalate (L : List (List Char))
    (helem : ∀ x ∈ L, x ≠ [] ∧ '\n' ∉ x ∧ edgeTrimmed x = true)
    (hfix : ∀ x ∈ L, normalizeLineL x = x) :
    parseObjectivesL (joinObjectivesL L) = L := by
  have hmap : L.map normalizeLineL = L := map_id_of_mem L normalizeLineL hfix
  have hfilter : (L.map normalizeLineL).filter (fun x => !x.isEmpty) = L := by
    rw [hmap]
    refine List.filter_eq_self.mpr (fun a ha => ?_)
    have := (helem a ha).1
    cases a with
    | nil => exact absurd rfl this
    | cons b bs => rfl
  have hjoin : joinObjectivesL L = intercalateNl L := by
    rw [joinObjectivesL, hfilter]
  rw [hjoin]
  cases L with
  | nil => rfl
  | cons g gs =>
    have hcr : replaceCRLF (intercalateNl (g :: gs)) = intercalateNl (g :: gs) :=
      replaceCRLF_intercalate _ (fun x hx =>
        ⟨(helem x hx).2.1, edgeTrimmed_getLast_ne_cr x (helem x hx).2.2⟩)
    have htrim : trimJS (intercalateNl (g :: gs)) = intercalateNl (g :: gs) :=
      trimJS_eq_self _ (edgeTrimmed_intercalate _
        (fun x hx => ⟨(helem x hx).1, (helem x hx).2.2⟩))
    have hne : intercalateNl (g :: gs) ≠ [] :=
      intercalate_cons_ne_nil g gs (helem g (List.mem_cons_self g gs)).1
    rw [parseObjectivesL, hcr, htrim, if_neg hne,
      splitOnNl_intercalate gs g (fun x hx => (helem x hx).2.1)]
    exact hfilter

theorem parse_join_fixed (l : List Char)
    (h : ∀ x ∈ parseObjectivesL l, normalizeLineL x = x) :
    parseObjectivesL (joinObjectivesL (parseObjectivesL l)) = parseObjectivesL l :=
  parse_intercalate (parseObjectivesL l) (fun x hx => parseObjectivesL_elem l x hx) h

theorem map_data_map_asString (Q : List (List Char)) :
    (Q.map List.asString).map String.data = Q := by
  rw [List.map_map]
  exact map_id_of_mem Q _ (fun x _ => rfl)

/-- Claim C9 amended: Each element of `parseObjectivesText t` is a non-empty
string with no leading or trailing whitespace, obtained by stripping at most
one leading list marker and trimming; the round-trip
`parseObjectivesText ∘ joinObjectives ∘ parseObjectivesText` re-applies the
per-line normalization once more, so it equals `parseObjectivesText t`
whenever every parsed element is a fixed point of `normalizeObjectiveLine`
(idempotence fails only on lines stacking several list markers). -/
theorem parse_join_amended (t : String) :
    ((∀ x ∈ parseObjectivesText t, normalizeObjectiveLine x = x) →
      parseObjectivesText (joinObjectives (parseObjectivesText t))
        = parseObjectivesText t) ∧
    (∀ x ∈ parseObjectivesText t, x ≠ "" ∧ edgeTrimmed x.data = true) := by
  constructor
  · intro hfix
    have hQ : (joinObjectives (List.map List.asString (parseObjectivesL t.data))).data
        = joinObjectivesL (parseObjectivesL t.data) := by
      rw [joinObjectives, data_asString, map_data_map_asString]
    have hfixL : ∀ y ∈ parseObjectivesL t.data, normalizeLineL y = y := by
      intro y hy
      have hmem : List.asString y ∈ parseObjectivesText t := by
        rw [parseObjectivesText]
        exact List.mem_map_of_mem List.asString hy
      have := hfix (List.asString y) hmem
      rw [normalizeObjectiveLine, data_asString] at this
      exact List.asString_inj.mp this
    rw [parseObjectivesText, parseObjectivesText, hQ, parse_join_fixed t.data hfixL]
  · intro x hx
    rw [parseObjectivesText] at hx
    obtain ⟨y, hy, hyx⟩ := List.mem_map.mp hx
    have hf := parseObjectivesL_elem t.data y hy
    constructor
    · intro he
      apply hf.1
      apply List.asString_inj.mp
      rw [hyx, he, String.asString_nil]
    · rw [← hyx, data_asString]
      exact hf.2.2

/-- Witness for `parse_join_amended` at `"- a\n2. b"`, whose parsed elements
`["a", "b"]` are fixed points of the normalization. -/
theorem parse_join_amended_witness :
    (parseObjectivesText (joinObjectives (parseObjectivesText "- a\n2. b"))
      = parseObjectivesText "- a\n2. b") ∧
    (∀ x ∈ parseObjectivesText "- a\n2. b", x ≠ "" ∧ edgeTrimmed x.data = true) :=
  ⟨(parse_join_amended "- a\n2. b").1 (by decide), (parse_join_amended "- a\n2. b").2⟩

end IdDss
